import Mathlib

/-!
# Verification of the A* number-path generator

A shallow embedding of `src/src/numgen/astar_generator.rs`
(`AStarPathGenerator`).  The engine is generic over its external
collaborators (`Path`, `Angle`, bounding shapes, the preference
comparator), which the repository consumes but does not define; they are
bundled in the `Collab` structure, modelled from the spec's collaborator
contracts (§6).  `Ratio<u64>` is modelled as `ℚ` together with the
nonnegativity contract `value_nonneg` (a `Ratio<u64>` is a nonnegative
rational by construction), `Ratio<i64>` as `ℚ`, `usize` as `ℕ`, and
fallible operations return `Option`.  The potentially
non-terminating `while` loops of `heuristic` and the main `run` loop are
embedded with explicit fuel: a `none` result means the computation did
not finish within the given fuel, and termination statements are phrased
as the existence of sufficient fuel.
-/

namespace AStarGen

/-- Modelled from the spec: the sign extracted from the signed target at
construction (`NonZeroSign` lives in `utils`, outside the shown source);
the target "is decomposed at construction into a sign (used to bias the
root path) and an unsigned magnitude". -/
inductive NonZeroSign where
  | positive
  | negative
deriving DecidableEq

/-- Modelled from the spec: the sign of a signed rational target, with the
non-negative case mapped to `positive`. -/
def nonZeroSignOf (q : ℚ) : NonZeroSign :=
  if 0 ≤ q then .positive else .negative

/-- `Ratio::is_integer` for the unsigned rationals modelling `Ratio<u64>`:
the denominator is 1. -/
def ratIsInteger (q : ℚ) : Bool :=
  q.den == 1

/-- Modelled from the spec: the bundle of external collaborator
capabilities consumed by the engine (spec §6): the fixed finite direction
set `Angle`, the opaque `Path` type with its zero-move constructor,
extension, value, move count and bounding-shape accessors and its
"preferable-to" comparator, and the bounding-shape compactness score and
dominance test. -/
structure Collab where
  Path : Type
  Angle : Type
  /-- `Angle::iter()`: the fixed, finite, exhaustively enumerable direction set. -/
  angles : List Angle
  /-- `Path::zero(sign)`. -/
  zero : NonZeroSign → Path
  /-- `path.with_angle(angle)`: `Ok`/`Err` modelled as `some`/`none`. -/
  with_angle : Path → Angle → Option Path
  /-- `path.value()`, a `Ratio<u64>`. -/
  value : Path → ℚ
  /-- `value` returns a `Ratio<u64>`, hence is nonnegative. -/
  value_nonneg : ∀ p, 0 ≤ value p
  /-- `path.len()`, the move count. -/
  len : Path → ℕ
  /-- The bounding-shape type returned by `path.bounds()`. -/
  Shape : Type
  /-- `path.bounds()`. -/
  bounds : Path → Shape
  /-- `shape.quasi_area()`: the scalar compactness score. -/
  quasi_area : Shape → ℕ
  /-- `shape.is_better_than(other)`: the dominance test, true when this
  shape is at least as good as the other. -/
  is_better_than : Shape → Shape → Bool
  /-- `path.should_replace(&best)`: the external preferable-or-still-viable
  comparator against an optional best-so-far path. -/
  should_replace : Path → Option Path → Bool

/-- `QueuedPath`: a path paired with its computed priority.  Modelled from
the spec: the frontier retrieves a smallest-priority entry first. -/
structure QP (C : Collab) where
  path : C.Path
  priority : ℕ

/-- The state of `AStarPathGenerator`: target magnitude, the two flags,
the best exact match so far (`smallest`), and the frontier. -/
structure GenState (C : Collab) where
  target : ℚ
  trim_larger : Bool
  allow_fractions : Bool
  smallest : Option C.Path
  frontier : List (QP C)

/-- Modelled from the spec: popping from the `BinaryHeap` frontier yields
an entry with the smallest priority (min-priority discipline; the tie
order among equal priorities is unspecified, modelled here as the first
minimal entry of the list). -/
def popMin (C : Collab) : List (QP C) → Option (QP C × List (QP C))
  | [] => none
  | qp :: rest =>
    match popMin C rest with
    | none => some (qp, [])
    | some (qp', rest') =>
      if qp.priority ≤ qp'.priority then some (qp, rest) else some (qp', qp :: rest')

/-- First `while` loop of `heuristic`:
`while val > target { val /= 2; heuristic += 1; }`, with explicit fuel. -/
def loop1F : (fuel : ℕ) → ℚ → ℚ → ℕ → Option (ℚ × ℕ)
  | fuel, val, target, h =>
    if val > target then
      match fuel with
      | 0 => none
      | f + 1 => loop1F f (val / 2) target (h + 1)
    else some (val, h)
termination_by fuel => fuel

/-- Second `while` loop of `heuristic`:
`while target / 2 > val { target /= 2; heuristic += 1; }`, with explicit
fuel. -/
def loop2F : (fuel : ℕ) → ℚ → ℚ → ℕ → Option (ℚ × ℕ)
  | fuel, target, val, h =>
    if target / 2 > val then
      match fuel with
      | 0 => none
      | f + 1 => loop2F f (target / 2) val (h + 1)
    else some (target, h)
termination_by fuel => fuel

/-- The state of the mutable locals `(val, heuristic)` of
`AStarPathGenerator::heuristic` after its zero-value branch: starting from
`val = path.value()` and `heuristic = path.len()`, if `val` is zero then
`heuristic` gains 1 and `val` gains 10, 5 or 1 according to the target. -/
def heuristicEntry (C : Collab) (target : ℚ) (p : C.Path) : ℚ × ℕ :=
  if C.value p = 0 then
    (C.value p + (if target > 10 then 10 else if target > 5 then 5 else 1), C.len p + 1)
  else (C.value p, C.len p)

/-- `AStarPathGenerator::heuristic`, with fuel for its two loops: the
zero-value branch (`heuristicEntry`), then the two halving loops. -/
def heuristicF (C : Collab) (target : ℚ) (fuel : ℕ) (p : C.Path) : Option ℕ :=
  match loop1F fuel (heuristicEntry C target p).1 target (heuristicEntry C target p).2 with
  | none => none
  | some (val', h') =>
    match loop2F fuel target val' h' with
    | none => none
    | some (_, h'') => some h''

/-- `AStarPathGenerator::push_path`: compute the heuristic priority and
push onto the frontier. -/
def push_pathF (C : Collab) (fuel : ℕ) (s : GenState C) (p : C.Path) : Option (GenState C) :=
  (heuristicF C s.target fuel p).map fun priority =>
    { s with frontier := ⟨p, priority⟩ :: s.frontier }

/-- `AStarPathGenerator::next_paths`: for each angle, try to extend, and
keep the extension only if it passes the trim-larger, integrality and
should-replace filters. -/
def next_paths (C : Collab) (s : GenState C) (path : C.Path) : List C.Path :=
  C.angles.filterMap fun angle =>
    match C.with_angle path angle with
    | some new_path =>
      if (!s.trim_larger || decide (C.value new_path ≤ s.target))
          && (s.allow_fractions || ratIsInteger (C.value new_path))
          && C.should_replace new_path s.smallest
      then some new_path else none
    | none => none

/-- Push every successor of the round, in order. -/
def pushAllF (C : Collab) (fuel : ℕ) : GenState C → List C.Path → Option (GenState C)
  | s, [] => some s
  | s, p :: ps => (push_pathF C fuel s p).bind fun s' => pushAllF C fuel s' ps

/-- `AStarPathGenerator::update_frontier`: pop the minimal-priority entry
(`unwrap` modelled as `Option.bind`), generate its successors, push them
all, and report whether some successor's value equals the target. -/
def update_frontierF (C : Collab) (fuel : ℕ) (s : GenState C) : Option (GenState C × Bool) :=
  (popMin C s.frontier).bind fun pr =>
    let s1 : GenState C := { s with frontier := pr.2 }
    let succs := next_paths C s1 pr.1.path
    let has := succs.any fun p => decide (C.value p = s.target)
    (pushAllF C fuel s1 succs).map fun s2 => (s2, has)

/-- `min_by_key(|path| path.bounds().quasi_area())`: first element with
minimal compactness score. -/
def minByQuasiArea (C : Collab) (l : List C.Path) : Option C.Path :=
  l.foldl
    (fun acc p =>
      match acc with
      | none => some p
      | some q => if C.quasi_area (C.bounds p) < C.quasi_area (C.bounds q) then some p else acc)
    none

/-- The body of the `if let Some(smallest_in_frontier)` block of `run`:
scan the frontier for exact matches, pick the one with smallest
quasi-area, and if it should replace the current best, prune the frontier
by the dominance test and adopt it. -/
def check_smallest (C : Collab) (s : GenState C) : GenState C :=
  match minByQuasiArea C ((s.frontier.map QP.path).filter fun p => decide (C.value p = s.target)) with
  | none => s
  | some smallest_in_frontier =>
    if C.should_replace smallest_in_frontier s.smallest then
      { s with
        frontier := s.frontier.filter fun qp =>
          C.is_better_than (C.bounds qp.path) (C.bounds smallest_in_frontier)
        smallest := some smallest_in_frontier }
    else s

/-- The `while !self.frontier.is_empty()` loop of `run`, with `n` as loop
fuel and `fuel` as heuristic fuel. -/
def runLoopF (C : Collab) (fuel : ℕ) : (n : ℕ) → GenState C → Option (Option C.Path)
  | n, s =>
    if s.frontier.isEmpty then some s.smallest
    else
      match n with
      | 0 => none
      | n + 1 =>
        (update_frontierF C fuel s).bind fun sh =>
          runLoopF C fuel n (if sh.2 then check_smallest C sh.1 else sh.1)
termination_by n => n

/-- `AStarPathGenerator::run`: the zero-target special case, then the main
loop. -/
def runF (C : Collab) (fuel : ℕ) (s : GenState C) : Option (Option C.Path) :=
  if s.target = 0 then
    some ((popMin C s.frontier).map fun pr => pr.1.path)
  else runLoopF C fuel fuel s

/-- `AStarPathGenerator::new`: store the unsigned magnitude and the flags,
and push the sign-biased root path onto the empty frontier (the push
evaluates the heuristic, hence the fuel and the `Option`). -/
def newF (C : Collab) (fuel : ℕ) (target : ℚ) (trim_larger allow_fractions : Bool) :
    Option (GenState C) :=
  push_pathF C fuel
    { target := |target|
      trim_larger := trim_larger
      allow_fractions := allow_fractions
      smallest := none
      frontier := [] }
    (C.zero (nonZeroSignOf target))

/-- One round of the main loop: `update_frontier` followed, when a match
was produced, by the frontier scan and possible best-candidate update. -/
def roundF (C : Collab) (fuel : ℕ) (s : GenState C) : Option (GenState C) :=
  (update_frontierF C fuel s).map fun sh => if sh.2 then check_smallest C sh.1 else sh.1

/-- One observation step of the run: states with an empty frontier are
absorbing (the loop has exited), otherwise perform one round. -/
def stepF (C : Collab) (fuel : ℕ) (s : GenState C) : Option (GenState C) :=
  if s.frontier.isEmpty then some s else roundF C fuel s

/-- Iterated observation steps: the state of the engine after `k` rounds
of the main loop. -/
def iterF (C : Collab) (fuel : ℕ) : ℕ → GenState C → Option (GenState C)
  | 0, s => some s
  | k + 1, s => (stepF C fuel s).bind (iterF C fuel k)

/-- Constructing the engine and running it, as one fueled computation. -/
def engineRunF (C : Collab) (fuel : ℕ) (target : ℚ) (trim_larger allow_fractions : Bool) :
    Option (Option C.Path) :=
  (newF C fuel target trim_larger allow_fractions).bind (runF C fuel)

/-- Termination of construction-plus-run: some fuel suffices for the whole
computation. -/
def engineTerminates (C : Collab) (target : ℚ) (trim_larger allow_fractions : Bool) : Prop :=
  ∃ fuel, (engineRunF C fuel target trim_larger allow_fractions).isSome = true

/-- Termination of construction alone: some fuel suffices for the root
push (i.e. for the heuristic evaluation inside `new`). -/
def newTerminates (C : Collab) (target : ℚ) (trim_larger allow_fractions : Bool) : Prop :=
  ∃ fuel, (newF C fuel target trim_larger allow_fractions).isSome = true

/-- The target-halving loop exactly as the claim words it ("the working
target is repeatedly halved while it exceeds the working value"), i.e.
with guard `target > val`; written down only to be compared with the
source's loop `loop2F`, whose guard is `target / 2 > val`. -/
def loop2Spec : (fuel : ℕ) → ℚ → ℚ → ℕ → Option (ℚ × ℕ)
  | fuel, target, val, h =>
    if target > val then
      match fuel with
      | 0 => none
      | f + 1 => loop2Spec f (target / 2) val (h + 1)
    else some (target, h)
termination_by fuel => fuel

/-- The best-candidate invariant: whatever `smallest` holds has value
exactly equal to the target magnitude. -/
def SmallestExact (C : Collab) (s : GenState C) : Prop :=
  ∀ p, s.smallest = some p → C.value p = s.target

/-- A concrete, total collaborator used to exercise the engine: paths are
natural numbers (the move count), the single direction adds 1 up to the
cap 2, the value is the number itself, shapes are trivial, and a path is
preferred only when no best-so-far exists. -/
def TestC : Collab where
  Path := ℕ
  Angle := Unit
  angles := [()]
  zero _ := 0
  with_angle n _ := if n < 2 then some (n + 1) else none
  value n := n
  value_nonneg p := by positivity
  len n := n
  Shape := Unit
  bounds _ := ()
  quasi_area _ := 0
  is_better_than _ _ := true
  should_replace p best := best.isNone

instance (n : ℕ) : OfNat TestC.Path n := inferInstanceAs (OfNat ℕ n)

/-- A concrete, total collaborator on which the search never finishes:
the single direction always extends, every nonempty path has value 1, so
with target 2 the frontier always holds exactly one unexpanded path and
no exact match ever appears. -/
def DivC : Collab where
  Path := ℕ
  Angle := Unit
  angles := [()]
  zero _ := 0
  with_angle n _ := some (n + 1)
  value n := if n = 0 then 0 else 1
  value_nonneg p := by dsimp only; split <;> norm_num
  len n := n
  Shape := Unit
  bounds _ := ()
  quasi_area _ := 0
  is_better_than _ _ := true
  should_replace _ _ := true

instance (n : ℕ) : OfNat DivC.Path n := inferInstanceAs (OfNat ℕ n)

/-- A concrete, total collaborator whose preference comparator accepts
everything while its shape-dominance test compares bounding-shape sizes:
successors inserted after a best solution is adopted can then be
dominated by it. -/
def BadC : Collab where
  Path := List Bool
  Angle := Bool
  angles := [true, false]
  zero _ := []
  with_angle p a := if p.length ≤ 1 then some (a :: p) else none
  value p := if p = [] then 0 else if p = [true] then 1 else if p = [false] then 0 else 2
  value_nonneg p := by dsimp only; split <;> [norm_num; split <;> [norm_num; split <;> norm_num]]
  len p := p.length
  Shape := ℕ
  bounds p := p.length
  quasi_area n := n
  is_better_than a b := decide (a ≤ b)
  should_replace _ _ := true

@[simp] theorem TestC_angles : TestC.angles = [()] := rfl

@[simp] theorem TestC_zero (s : NonZeroSign) : TestC.zero s = (0 : ℕ) := rfl

@[simp] theorem TestC_with_angle (n : ℕ) (a : Unit) :
    TestC.with_angle n a = if n < 2 then some (n + 1) else none := rfl

@[simp] theorem TestC_value (n : ℕ) : TestC.value n = n := rfl

@[simp] theorem TestC_len (n : ℕ) : TestC.len n = n := rfl

@[simp] theorem TestC_quasi_area (s : TestC.Shape) : TestC.quasi_area s = 0 := rfl

@[simp] theorem TestC_is_better_than (a b : TestC.Shape) : TestC.is_better_than a b = true := rfl

@[simp] theorem TestC_should_replace (p : ℕ) (b : Option ℕ) :
    TestC.should_replace p b = b.isNone := rfl

@[simp] theorem DivC_angles : DivC.angles = [()] := rfl

@[simp] theorem DivC_zero (s : NonZeroSign) : DivC.zero s = (0 : ℕ) := rfl

@[simp] theorem DivC_with_angle (n : ℕ) (a : Unit) : DivC.with_angle n a = some (n + 1) := rfl

@[simp] theorem DivC_value (n : ℕ) : DivC.value n = if n = 0 then 0 else 1 := rfl

@[simp] theorem DivC_len (n : ℕ) : DivC.len n = n := rfl

@[simp] theorem DivC_should_replace (p : ℕ) (b : Option ℕ) : DivC.should_replace p b = true := rfl

@[simp] theorem BadC_angles : BadC.angles = [true, false] := rfl

@[simp] theorem BadC_zero (s : NonZeroSign) : BadC.zero s = ([] : List Bool) := rfl

@[simp] theorem BadC_with_angle (p : List Bool) (a : Bool) :
    BadC.with_angle p a = if p.length ≤ 1 then some (a :: p) else none := rfl

theorem BadC_value (p : List Bool) :
    BadC.value p = if p = [] then 0 else if p = [true] then 1 else if p = [false] then 0 else 2 :=
  rfl

@[simp] theorem BadC_value_nil : BadC.value [] = 0 := rfl

@[simp] theorem BadC_value_true : BadC.value [true] = 1 := rfl

@[simp] theorem BadC_value_false : BadC.value [false] = 0 := rfl

@[simp] theorem BadC_value_pair (a b : Bool) : BadC.value [a, b] = 2 := by
  cases a <;> cases b <;> rfl

@[simp] theorem BadC_len (p : List Bool) : BadC.len p = p.length := rfl

@[simp] theorem BadC_bounds (p : List Bool) : BadC.bounds p = p.length := rfl

@[simp] theorem BadC_quasi_area (n : ℕ) : BadC.quasi_area n = n := rfl

@[simp] theorem BadC_is_better_than (a b : ℕ) : BadC.is_better_than a b = decide (a ≤ b) := rfl

@[simp] theorem BadC_should_replace (p : List Bool) (b : Option (List Bool)) :
    BadC.should_replace p b = true := rfl

/-! ## Basic lemmas about the frontier and the fueled loops -/

theorem popMin_isSome_of_ne_nil (C : Collab) (l : List (QP C)) (h : l ≠ []) :
    (popMin C l).isSome = true := by
  cases l with
  | nil => exact absurd rfl h
  | cons qp rest =>
    rw [popMin]
    rcases hrest : popMin C rest with _ | pr
    · simp
    · dsimp only
      split <;> simp

theorem popMin_ne_nil (C : Collab) (l : List (QP C)) (pr : QP C × List (QP C))
    (h : popMin C l = some pr) : l ≠ [] := by
  intro hl
  subst hl
  rw [popMin] at h
  cases h

theorem loop1F_succ_of_gt (f : ℕ) (val target : ℚ) (h : ℕ) (hg : val > target) :
    loop1F (f + 1) val target h = loop1F f (val / 2) target (h + 1) := by
  rw [loop1F.eq_def]; dsimp only; rw [if_pos hg]

theorem loop1F_zero_of_gt (val target : ℚ) (h : ℕ) (hg : val > target) :
    loop1F 0 val target h = none := by
  rw [loop1F.eq_def]; dsimp only; rw [if_pos hg]

theorem loop1F_of_not_gt (f : ℕ) (val target : ℚ) (h : ℕ) (hg : ¬val > target) :
    loop1F f val target h = some (val, h) := by
  rw [loop1F.eq_def]; dsimp only; rw [if_neg hg]

theorem loop2F_succ_of_gt (f : ℕ) (target val : ℚ) (h : ℕ) (hg : target / 2 > val) :
    loop2F (f + 1) target val h = loop2F f (target / 2) val (h + 1) := by
  rw [loop2F.eq_def]; dsimp only; rw [if_pos hg]

theorem loop2F_zero_of_gt (target val : ℚ) (h : ℕ) (hg : target / 2 > val) :
    loop2F 0 target val h = none := by
  rw [loop2F.eq_def]; dsimp only; rw [if_pos hg]

theorem loop2F_of_not_gt (f : ℕ) (target val : ℚ) (h : ℕ) (hg : ¬target / 2 > val) :
    loop2F f target val h = some (target, h) := by
  rw [loop2F.eq_def]; dsimp only; rw [if_neg hg]

theorem loop1F_none_of_nonpos_target (f : ℕ) (val target : ℚ) (h : ℕ)
    (hv : 0 < val) (ht : target ≤ 0) : loop1F f val target h = none := by
  induction f generalizing val h with
  | zero => exact loop1F_zero_of_gt val target h (lt_of_le_of_lt ht hv)
  | succ f ih =>
    rw [loop1F_succ_of_gt f val target h (lt_of_le_of_lt ht hv)]
    exact ih (val / 2) (h + 1) (by positivity)

theorem loop1F_mono (f f' : ℕ) (hf : f ≤ f') (val target : ℚ) (h : ℕ) (r : ℚ × ℕ)
    (hr : loop1F f val target h = some r) : loop1F f' val target h = some r := by
  induction f generalizing f' val h with
  | zero =>
    by_cases hg : val > target
    · rw [loop1F_zero_of_gt val target h hg] at hr; cases hr
    · rw [loop1F_of_not_gt f' val target h hg]; rw [loop1F_of_not_gt 0 val target h hg] at hr
      exact hr
  | succ f ih =>
    by_cases hg : val > target
    · obtain ⟨f'', rfl⟩ : ∃ f'', f' = f'' + 1 := ⟨f' - 1, by omega⟩
      rw [loop1F_succ_of_gt f'' val target h hg]
      rw [loop1F_succ_of_gt f val target h hg] at hr
      exact ih f'' (by omega) (val / 2) (h + 1) hr
    · rw [loop1F_of_not_gt f' val target h hg]
      rw [loop1F_of_not_gt (f + 1) val target h hg] at hr
      exact hr

theorem loop2F_mono (f f' : ℕ) (hf : f ≤ f') (target val : ℚ) (h : ℕ) (r : ℚ × ℕ)
    (hr : loop2F f target val h = some r) : loop2F f' target val h = some r := by
  induction f generalizing f' target h with
  | zero =>
    by_cases hg : target / 2 > val
    · rw [loop2F_zero_of_gt target val h hg] at hr; cases hr
    · rw [loop2F_of_not_gt f' target val h hg]; rw [loop2F_of_not_gt 0 target val h hg] at hr
      exact hr
  | succ f ih =>
    by_cases hg : target / 2 > val
    · obtain ⟨f'', rfl⟩ : ∃ f'', f' = f'' + 1 := ⟨f' - 1, by omega⟩
      rw [loop2F_succ_of_gt f'' target val h hg]
      rw [loop2F_succ_of_gt f target val h hg] at hr
      exact ih f'' (by omega) (target / 2) (h + 1) hr
    · rw [loop2F_of_not_gt f' target val h hg]
      rw [loop2F_of_not_gt (f + 1) target val h hg] at hr
      exact hr

theorem loop1F_isSome_of_le (k : ℕ) (val target : ℚ) (h : ℕ) (hk : val ≤ target * 2 ^ k) :
    (loop1F k val target h).isSome = true := by
  induction k generalizing val h with
  | zero =>
    rw [loop1F_of_not_gt 0 val target h (by rw [pow_zero, mul_one] at hk; exact not_lt.mpr hk)]
    rfl
  | succ k ih =>
    by_cases hg : val > target
    · rw [loop1F_succ_of_gt k val target h hg]
      refine ih (val / 2) (h + 1) ?_
      rw [div_le_iff₀ (by norm_num : (0:ℚ) < 2)]
      calc val ≤ target * 2 ^ (k + 1) := hk
        _ = target * 2 ^ k * 2 := by ring
    · rw [loop1F_of_not_gt (k + 1) val target h hg]; rfl

theorem loop2F_isSome_of_le (k : ℕ) (target val : ℚ) (h : ℕ)
    (hk : target ≤ val * 2 ^ (k + 1)) : (loop2F k target val h).isSome = true := by
  induction k generalizing target h with
  | zero =>
    have hng : ¬target / 2 > val := by
      rw [not_lt, div_le_iff₀ (by norm_num : (0:ℚ) < 2)]
      calc target ≤ val * 2 ^ (0 + 1) := hk
        _ = val * 2 := by ring
    rw [loop2F_of_not_gt 0 target val h hng]
    rfl
  | succ k ih =>
    by_cases hg : target / 2 > val
    · rw [loop2F_succ_of_gt k target val h hg]
      refine ih (target / 2) (h + 1) ?_
      rw [div_le_iff₀ (by norm_num : (0:ℚ) < 2)]
      calc target ≤ val * 2 ^ (k + 1 + 1) := hk
        _ = val * 2 ^ (k + 1) * 2 := by ring
    · rw [loop2F_of_not_gt (k + 1) target val h hg]; rfl

theorem exists_pow_le (val target : ℚ) (ht : 0 < target) : ∃ k : ℕ, val ≤ target * 2 ^ k := by
  obtain ⟨n, hn⟩ := exists_nat_ge (val / target)
  refine ⟨n, ?_⟩
  have h1 : val ≤ target * n := by
    rw [div_le_iff₀ ht] at hn
    calc val ≤ n * target := hn
      _ = target * n := by ring
  have h2 : (n : ℚ) ≤ 2 ^ n := by
    calc (n : ℚ) ≤ ((2 ^ n : ℕ) : ℚ) := by exact_mod_cast (Nat.lt_two_pow n).le
      _ = 2 ^ n := by push_cast; ring
  calc val ≤ target * n := h1
    _ ≤ target * 2 ^ n := mul_le_mul_of_nonneg_left h2 ht.le

theorem loop1F_pos (f : ℕ) (val target : ℚ) (h : ℕ) (r : ℚ × ℕ)
    (hr : loop1F f val target h = some r) (hv : 0 < val) : 0 < r.1 := by
  induction f generalizing val h with
  | zero =>
    by_cases hg : val > target
    · rw [loop1F_zero_of_gt val target h hg] at hr; cases hr
    · rw [loop1F_of_not_gt 0 val target h hg] at hr
      cases hr; exact hv
  | succ f ih =>
    by_cases hg : val > target
    · rw [loop1F_succ_of_gt f val target h hg] at hr
      exact ih (val / 2) (h + 1) hr (by positivity)
    · rw [loop1F_of_not_gt (f + 1) val target h hg] at hr
      cases hr; exact hv

/-- The working value entering the first halving loop of the heuristic is
always positive: a zero path value is inflated by 10, 5 or 1, and a
nonzero path value is positive because `Ratio<u64>` values are
nonnegative. -/
theorem heuristicEntry_pos (C : Collab) (target : ℚ) (p : C.Path) :
    0 < (heuristicEntry C target p).1 := by
  rw [heuristicEntry]
  by_cases hz : C.value p = 0
  · rw [if_pos hz, hz]
    split
    · norm_num
    · split <;> norm_num
  · rw [if_neg hz]
    exact lt_of_le_of_ne (C.value_nonneg p) (Ne.symm hz)

/-- With a zero target magnitude the heuristic never terminates: after the
zero-value branch the working value is positive, and halving a positive
value never brings it down to zero or below. -/
theorem heuristicF_none_of_zero_target (C : Collab) (fuel : ℕ) (p : C.Path) :
    heuristicF C 0 fuel p = none := by
  rw [heuristicF]
  rw [loop1F_none_of_nonpos_target fuel _ 0 _ (heuristicEntry_pos C 0 p) le_rfl]

theorem heuristicF_mono (C : Collab) (target : ℚ) (f f' : ℕ) (hf : f ≤ f') (p : C.Path)
    (r : ℕ) (hr : heuristicF C target f p = some r) : heuristicF C target f' p = some r := by
  rw [heuristicF] at hr ⊢
  rcases h1 : loop1F f (heuristicEntry C target p).1 target (heuristicEntry C target p).2 with
    _ | ⟨v', h'⟩
  · rw [h1] at hr; cases hr
  · rw [h1] at hr
    rw [loop1F_mono f f' hf _ _ _ _ h1]
    dsimp only at hr ⊢
    rcases h2 : loop2F f target v' h' with _ | ⟨t', h''⟩
    · rw [h2] at hr; cases hr
    · rw [h2] at hr
      rw [loop2F_mono f f' hf _ _ _ _ h2]
      exact hr

/-- Every heuristic evaluation terminates when the target magnitude is
positive: some fuel returns a value. -/
theorem heuristicF_isSome_of_pos (C : Collab) (target : ℚ) (p : C.Path) (ht : 0 < target) :
    ∃ fuel, (heuristicF C target fuel p).isSome = true := by
  have hpos : 0 < (heuristicEntry C target p).1 := heuristicEntry_pos C target p
  obtain ⟨k1, hk1⟩ := exists_pow_le (heuristicEntry C target p).1 target ht
  have h1 := loop1F_isSome_of_le k1 (heuristicEntry C target p).1 target
    (heuristicEntry C target p).2 hk1
  obtain ⟨⟨v', h'⟩, hv'⟩ := Option.isSome_iff_exists.mp h1
  have hv'pos : 0 < v' := loop1F_pos k1 _ target _ (v', h') hv' hpos
  obtain ⟨k2, hk2⟩ := exists_pow_le target v' hv'pos
  have hk2' : target ≤ v' * 2 ^ (k2 + 1) := by
    calc target ≤ v' * 2 ^ k2 := hk2
      _ ≤ v' * 2 ^ (k2 + 1) := by
        refine mul_le_mul_of_nonneg_left ?_ hv'pos.le
        exact pow_le_pow_right₀ (by norm_num) (by omega)
  have h2 := loop2F_isSome_of_le k2 target v' h' hk2'
  obtain ⟨⟨t', h''⟩, ht''⟩ := Option.isSome_iff_exists.mp h2
  refine ⟨max k1 k2, ?_⟩
  rw [heuristicF]
  rw [loop1F_mono k1 (max k1 k2) (le_max_left k1 k2) _ _ _ _ hv']
  dsimp only
  rw [loop2F_mono k2 (max k1 k2) (le_max_right k1 k2) _ _ _ _ ht'']
  rfl

/-! ## Preservation lemmas: which parts of the state each operation leaves
unchanged -/

theorem push_pathF_same (C : Collab) (fuel : ℕ) (s : GenState C) (p : C.Path) (s' : GenState C)
    (h : push_pathF C fuel s p = some s') :
    s'.target = s.target ∧ s'.trim_larger = s.trim_larger ∧
      s'.allow_fractions = s.allow_fractions ∧ s'.smallest = s.smallest := by
  rw [push_pathF] at h
  rcases hh : heuristicF C s.target fuel p with _ | pr
  · rw [hh] at h; cases h
  · rw [hh] at h
    cases h
    exact ⟨rfl, rfl, rfl, rfl⟩

theorem pushAllF_same (C : Collab) (fuel : ℕ) (l : List C.Path) (s s' : GenState C)
    (h : pushAllF C fuel s l = some s') :
    s'.target = s.target ∧ s'.trim_larger = s.trim_larger ∧
      s'.allow_fractions = s.allow_fractions ∧ s'.smallest = s.smallest := by
  induction l generalizing s with
  | nil => rw [pushAllF] at h; cases h; exact ⟨rfl, rfl, rfl, rfl⟩
  | cons p ps ih =>
    rw [pushAllF] at h
    rcases hp : push_pathF C fuel s p with _ | s1
    · rw [hp] at h; cases h
    · rw [hp] at h
      simp only [Option.some_bind] at h
      obtain ⟨h1, h2, h3, h4⟩ := push_pathF_same C fuel s p s1 hp
      obtain ⟨g1, g2, g3, g4⟩ := ih s1 h
      exact ⟨g1.trans h1, g2.trans h2, g3.trans h3, g4.trans h4⟩

theorem update_frontierF_same (C : Collab) (fuel : ℕ) (s : GenState C)
    (r : GenState C × Bool) (h : update_frontierF C fuel s = some r) :
    r.1.target = s.target ∧ r.1.trim_larger = s.trim_larger ∧
      r.1.allow_fractions = s.allow_fractions ∧ r.1.smallest = s.smallest := by
  rw [update_frontierF] at h
  rcases hp : popMin C s.frontier with _ | pr
  · rw [hp] at h; cases h
  · rw [hp] at h
    simp only [Option.some_bind] at h
    rcases hpush : pushAllF C fuel { s with frontier := pr.2 }
        (next_paths C { s with frontier := pr.2 } pr.1.path) with _ | s2
    · rw [hpush] at h; cases h
    · rw [hpush, Option.map_some'] at h
      cases h
      obtain ⟨g1, g2, g3, g4⟩ := pushAllF_same C fuel _ _ _ hpush
      exact ⟨g1, g2, g3, g4⟩

theorem minByQuasiArea_mem (C : Collab) (l : List C.Path) (p : C.Path)
    (h : minByQuasiArea C l = some p) : p ∈ l := by
  rw [minByQuasiArea] at h
  suffices H : ∀ (l : List C.Path) (acc : Option C.Path),
      l.foldl (fun acc p =>
        match acc with
        | none => some p
        | some q => if C.quasi_area (C.bounds p) < C.quasi_area (C.bounds q) then some p
            else acc) acc = some p → acc = some p ∨ p ∈ l by
    rcases H l none h with h' | h'
    · cases h'
    · exact h'
  intro l
  induction l with
  | nil => intro acc h; exact Or.inl h
  | cons q l ih =>
    intro acc h
    rw [List.foldl_cons] at h
    rcases ih _ h with h' | h'
    · rcases acc with _ | r
      · cases h'; exact Or.inr (List.mem_cons_self _ _)
      · dsimp only at h'
        split at h'
        · cases h'; exact Or.inr (List.mem_cons_self _ _)
        · exact Or.inl h'
    · exact Or.inr (List.mem_cons_of_mem q h')

theorem check_smallest_same (C : Collab) (s : GenState C) :
    (check_smallest C s).target = s.target ∧
      (check_smallest C s).trim_larger = s.trim_larger ∧
      (check_smallest C s).allow_fractions = s.allow_fractions := by
  rw [check_smallest]
  rcases h : minByQuasiArea C
      ((s.frontier.map QP.path).filter fun p => decide (C.value p = s.target)) with _ | q
  · exact ⟨rfl, rfl, rfl⟩
  · dsimp only
    split <;> exact ⟨rfl, rfl, rfl⟩

/-- What `check_smallest` can do to the best candidate: leave it unchanged,
or replace it with a frontier entry whose value equals the target and
which the external comparator prefers to the old one. -/
theorem check_smallest_cases (C : Collab) (s : GenState C) :
    (check_smallest C s).smallest = s.smallest ∨
      ∃ p, (check_smallest C s).smallest = some p ∧ C.value p = s.target ∧
        C.should_replace p s.smallest = true := by
  rw [check_smallest]
  rcases h : minByQuasiArea C
      ((s.frontier.map QP.path).filter fun p => decide (C.value p = s.target)) with _ | q
  · exact Or.inl rfl
  · dsimp only
    have hq := minByQuasiArea_mem C _ q h
    rw [List.mem_filter] at hq
    split
    · refine Or.inr ⟨q, rfl, ?_, by assumption⟩
      exact of_decide_eq_true hq.2
    · exact Or.inl rfl

theorem roundF_same (C : Collab) (fuel : ℕ) (s r : GenState C) (h : roundF C fuel s = some r) :
    r.target = s.target ∧ r.trim_larger = s.trim_larger ∧
      r.allow_fractions = s.allow_fractions := by
  rw [roundF] at h
  rcases hu : update_frontierF C fuel s with _ | sh
  · rw [hu] at h; cases h
  · rw [hu, Option.map_some'] at h
    cases h
    obtain ⟨h1, h2, h3, _⟩ := update_frontierF_same C fuel s sh hu
    split
    · obtain ⟨g1, g2, g3⟩ := check_smallest_same C sh.1
      exact ⟨g1.trans h1, g2.trans h2, g3.trans h3⟩
    · exact ⟨h1, h2, h3⟩

theorem stepF_same (C : Collab) (fuel : ℕ) (s r : GenState C) (h : stepF C fuel s = some r) :
    r.target = s.target ∧ r.trim_larger = s.trim_larger ∧
      r.allow_fractions = s.allow_fractions := by
  rw [stepF] at h
  split at h
  · cases h; exact ⟨rfl, rfl, rfl⟩
  · exact roundF_same C fuel s r h

theorem iterF_same (C : Collab) (fuel k : ℕ) (s r : GenState C) (h : iterF C fuel k s = some r) :
    r.target = s.target ∧ r.trim_larger = s.trim_larger ∧
      r.allow_fractions = s.allow_fractions := by
  induction k generalizing s with
  | zero => rw [iterF] at h; cases h; exact ⟨rfl, rfl, rfl⟩
  | succ k ih =>
    rw [iterF] at h
    rcases hs : stepF C fuel s with _ | s1
    · rw [hs] at h; cases h
    · rw [hs] at h
      simp only [Option.some_bind] at h
      obtain ⟨h1, h2, h3⟩ := stepF_same C fuel s s1 hs
      obtain ⟨g1, g2, g3⟩ := ih s1 h
      exact ⟨g1.trans h1, g2.trans h2, g3.trans h3⟩

/-! ## Evolution of the best candidate along a round -/

/-- One round leaves the best candidate unchanged, or replaces it by an
exact match that the external comparator prefers. -/
theorem roundF_smallest_cases (C : Collab) (fuel : ℕ) (s r : GenState C)
    (h : roundF C fuel s = some r) :
    r.smallest = s.smallest ∨
      ∃ p, r.smallest = some p ∧ C.should_replace p s.smallest = true := by
  rw [roundF] at h
  rcases hu : update_frontierF C fuel s with _ | sh
  · rw [hu] at h; cases h
  · rw [hu, Option.map_some'] at h
    cases h
    obtain ⟨_, _, _, h4⟩ := update_frontierF_same C fuel s sh hu
    split
    · rcases check_smallest_cases C sh.1 with hc | ⟨p, hp1, _, hp3⟩
      · exact Or.inl (hc.trans h4)
      · rw [h4] at hp3
        exact Or.inr ⟨p, hp1, hp3⟩
    · exact Or.inl h4

theorem stepF_smallest_cases (C : Collab) (fuel : ℕ) (s r : GenState C)
    (h : stepF C fuel s = some r) :
    r.smallest = s.smallest ∨
      ∃ p, r.smallest = some p ∧ C.should_replace p s.smallest = true := by
  rw [stepF] at h
  split at h
  · cases h; exact Or.inl rfl
  · exact roundF_smallest_cases C fuel s r h

/-- Once the best candidate is set it stays set across any number of
rounds. -/
theorem iterF_smallest_isSome (C : Collab) (fuel k : ℕ) (s r : GenState C)
    (h : iterF C fuel k s = some r) (hs : s.smallest.isSome = true) :
    r.smallest.isSome = true := by
  induction k generalizing s with
  | zero => rw [iterF] at h; cases h; exact hs
  | succ k ih =>
    rw [iterF] at h
    rcases hstep : stepF C fuel s with _ | s1
    · rw [hstep] at h; cases h
    · rw [hstep] at h
      simp only [Option.some_bind] at h
      refine ih s1 h ?_
      rcases stepF_smallest_cases C fuel s s1 hstep with hc | ⟨p, hp, _⟩
      · rw [hc]; exact hs
      · rw [hp]; rfl

/-- The `SmallestExact` invariant (the best candidate, when present, has
value equal to the target) is preserved by a round. -/
theorem stepF_smallestExact (C : Collab) (fuel : ℕ) (s r : GenState C)
    (h : stepF C fuel s = some r) (hs : SmallestExact C s) : SmallestExact C r := by
  rw [stepF] at h
  split at h
  · cases h; exact hs
  · rw [roundF] at h
    rcases hu : update_frontierF C fuel s with _ | sh
    · rw [hu] at h; cases h
    · rw [hu, Option.map_some'] at h
      cases h
      obtain ⟨h1, _, _, h4⟩ := update_frontierF_same C fuel s sh hu
      intro p hp
      by_cases hb : sh.2 = true
      · rw [if_pos hb] at hp ⊢
        rcases check_smallest_cases C sh.1 with hc | ⟨q, hq1, hq2, _⟩
        · rw [hc, h4] at hp
          rw [(check_smallest_same C sh.1).1, h1]
          exact hs p hp
        · rw [hq1] at hp
          cases hp
          rw [(check_smallest_same C sh.1).1]
          exact hq2
      · rw [if_neg hb] at hp ⊢
        rw [h4] at hp
        rw [h1]
        exact hs p hp

theorem iterF_smallestExact (C : Collab) (fuel k : ℕ) (s r : GenState C)
    (h : iterF C fuel k s = some r) (hs : SmallestExact C s) : SmallestExact C r := by
  induction k generalizing s with
  | zero => rw [iterF] at h; cases h; exact hs
  | succ k ih =>
    rw [iterF] at h
    rcases hstep : stepF C fuel s with _ | s1
    · rw [hstep] at h; cases h
    · rw [hstep] at h
      simp only [Option.some_bind] at h
      exact ih s1 h (stepF_smallestExact C fuel s s1 hstep hs)

/-! ## The main loop as iterated rounds -/

theorem iterF_of_isEmpty (C : Collab) (fuel k : ℕ) (s : GenState C)
    (h : s.frontier.isEmpty = true) : iterF C fuel k s = some s := by
  induction k with
  | zero => rw [iterF]
  | succ k ih =>
    rw [iterF, stepF, if_pos h]
    simp only [Option.some_bind]
    exact ih

theorem iterF_add (C : Collab) (fuel a b : ℕ) (s : GenState C) :
    iterF C fuel (a + b) s = (iterF C fuel a s).bind (iterF C fuel b) := by
  induction a generalizing s with
  | zero => rw [iterF]; rw [Nat.zero_add]; rw [Option.some_bind]
  | succ a ih =>
    have : a + 1 + b = (a + b) + 1 := by omega
    rw [this, iterF, iterF]
    rcases hs : stepF C fuel s with _ | s1
    · rfl
    · simp only [Option.some_bind]
      exact ih s1

/-- The `run` loop computes exactly the result of iterating rounds until
the frontier is empty: it returns the final state's best candidate, and
runs out of loop fuel otherwise. -/
theorem runLoopF_eq_iterF (C : Collab) (fuel n : ℕ) (s : GenState C) :
    runLoopF C fuel n s =
      (iterF C fuel n s).bind fun s' =>
        if s'.frontier.isEmpty then some s'.smallest else none := by
  induction n generalizing s with
  | zero =>
    rw [runLoopF.eq_def, iterF]
    dsimp only
    split
    · rw [Option.some_bind]; split <;> simp_all
    · rw [Option.some_bind]; split <;> simp_all
  | succ n ih =>
    rw [runLoopF.eq_def, iterF]
    dsimp only
    by_cases he : s.frontier.isEmpty = true
    · rw [if_pos he, stepF, if_pos he]
      rw [Option.some_bind]
      rw [iterF_of_isEmpty C fuel n s he]
      rw [Option.some_bind, if_pos he]
    · rw [if_neg he, stepF, if_neg he, roundF]
      rcases hu : update_frontierF C fuel s with _ | sh
      · rfl
      · rw [Option.map_some', Option.some_bind, Option.some_bind]
        exact ih _

/-! ## Characterization of successor generation -/

/-- Membership in the successor set: a path is kept if and only if it is a
legal extension by some direction and passes the trim-larger filter, the
integrality filter and the should-replace filter. -/
theorem mem_next_paths (C : Collab) (s : GenState C) (path p' : C.Path) :
    p' ∈ next_paths C s path ↔
      (∃ a ∈ C.angles, C.with_angle path a = some p') ∧
        (s.trim_larger = true → C.value p' ≤ s.target) ∧
        (s.allow_fractions = false → ratIsInteger (C.value p') = true) ∧
        C.should_replace p' s.smallest = true := by
  rw [next_paths, List.mem_filterMap]
  constructor
  · rintro ⟨a, ha, hf⟩
    rcases hw : C.with_angle path a with _ | np
    · rw [hw] at hf; cases hf
    · rw [hw] at hf
      dsimp only at hf
      split at hf
      · cases hf
        rename_i hcond
        simp only [Bool.and_eq_true, Bool.or_eq_true, Bool.not_eq_true',
          decide_eq_true_eq] at hcond
        obtain ⟨⟨c1, c2⟩, c3⟩ := hcond
        refine ⟨⟨a, ha, hw⟩, ?_, ?_, c3⟩
        · intro ht
          rcases c1 with c | c
          · rw [ht] at c; cases c
          · exact c
        · intro hfr
          rcases c2 with c | c
          · rw [hfr] at c; cases c
          · exact c
      · cases hf
  · rintro ⟨⟨a, ha, hw⟩, c1, c2, c3⟩
    refine ⟨a, ha, ?_⟩
    rw [hw]
    dsimp only
    have hcond : ((!s.trim_larger || decide (C.value p' ≤ s.target))
        && (s.allow_fractions || ratIsInteger (C.value p'))
        && C.should_replace p' s.smallest) = true := by
      simp only [Bool.and_eq_true, Bool.or_eq_true, Bool.not_eq_true', decide_eq_true_eq]
      refine ⟨⟨?_, ?_⟩, c3⟩
      · cases htl : s.trim_larger
        · exact Or.inl rfl
        · exact Or.inr (c1 htl)
      · cases haf : s.allow_fractions
        · exact Or.inr (c2 haf)
        · exact Or.inl rfl
    rw [if_pos hcond]

/-! ## A total collaborator on which the search never terminates -/

theorem divC_round (fuel k : ℕ) :
    update_frontierF DivC fuel ⟨2, true, true, none, [⟨k + 1, k + 1⟩]⟩ =
      some (⟨2, true, true, none, [⟨k + 2, k + 2⟩]⟩, false) := by
  rw [update_frontierF]
  have hpop : popMin DivC [⟨k + 1, k + 1⟩] = some (⟨k + 1, k + 1⟩, []) := rfl
  rw [hpop, Option.some_bind]
  have hnp : next_paths DivC ⟨2, true, true, none, []⟩ (k + 1) = [k + 2] := by
    rw [next_paths]
    norm_num [ratIsInteger, Nat.add_eq_zero, List.filterMap_cons, List.filterMap_nil]
  dsimp only
  rw [hnp]
  have hheu : heuristicF DivC 2 fuel (k + 2) = some (k + 2) := by
    rw [heuristicF]
    have hent : heuristicEntry DivC 2 ((k + 2 : ℕ) : DivC.Path) = (1, k + 2) := by
      norm_num [heuristicEntry, Nat.add_eq_zero]
    rw [hent]
    rw [loop1F_of_not_gt fuel 1 2 (k + 2) (by norm_num)]
    dsimp only
    rw [loop2F_of_not_gt fuel 2 1 (k + 2) (by norm_num)]
  rw [pushAllF, push_pathF, hheu, Option.map_some', Option.some_bind, pushAllF,
    Option.map_some']
  norm_num [Nat.add_eq_zero]

theorem divC_runLoopF_none (fuel : ℕ) : ∀ n k : ℕ,
    runLoopF DivC fuel n ⟨2, true, true, none, [⟨k + 1, k + 1⟩]⟩ = none := by
  intro n
  induction n with
  | zero =>
    intro k
    rw [runLoopF.eq_def]
    norm_num
  | succ n ih =>
    intro k
    rw [runLoopF.eq_def]
    dsimp only
    rw [if_neg (by norm_num)]
    rw [divC_round fuel k, Option.some_bind]
    rw [if_neg (by norm_num)]
    exact ih (k + 1)

theorem divC_round0 (fuel : ℕ) :
    update_frontierF DivC fuel ⟨2, true, true, none, [⟨0, 1⟩]⟩ =
      some (⟨2, true, true, none, [⟨1, 1⟩]⟩, false) := by
  rw [update_frontierF]
  have hpop : popMin DivC [⟨0, 1⟩] = some (⟨0, 1⟩, []) := rfl
  rw [hpop, Option.some_bind]
  have hnp : next_paths DivC ⟨2, true, true, none, []⟩ 0 = [1] := by
    rw [next_paths]
    norm_num [ratIsInteger, List.filterMap_cons, List.filterMap_nil]
  dsimp only
  rw [hnp]
  have hheu : heuristicF DivC 2 fuel ((1 : ℕ) : DivC.Path) = some 1 := by
    rw [heuristicF]
    have hent : heuristicEntry DivC 2 ((1 : ℕ) : DivC.Path) = (1, 1) := by
      norm_num [heuristicEntry]
    rw [hent]
    rw [loop1F_of_not_gt fuel 1 2 1 (by norm_num)]
    dsimp only
    rw [loop2F_of_not_gt fuel 2 1 1 (by norm_num)]
  rw [pushAllF, push_pathF, hheu, Option.map_some', Option.some_bind, pushAllF,
    Option.map_some']
  norm_num

theorem divC_newF (fuel : ℕ) :
    newF DivC fuel 2 true true = some ⟨2, true, true, none, [⟨0, 1⟩]⟩ := by
  rw [newF, push_pathF]
  dsimp only
  have habs : |(2 : ℚ)| = 2 := by norm_num
  rw [habs]
  have hheu : heuristicF DivC 2 fuel (DivC.zero (nonZeroSignOf 2)) = some 1 := by
    rw [heuristicF]
    have hent : heuristicEntry DivC 2 (DivC.zero (nonZeroSignOf 2)) = (1, 1) := by
      norm_num [heuristicEntry, nonZeroSignOf]
    rw [hent]
    rw [loop1F_of_not_gt fuel 1 2 1 (by norm_num)]
    dsimp only
    rw [loop2F_of_not_gt fuel 2 1 1 (by norm_num)]
  rw [hheu, Option.map_some']
  rfl

/-! ## Monotonicity and sufficiency of fuel for a round -/

theorem push_pathF_mono (C : Collab) (f f' : ℕ) (hf : f ≤ f') (s : GenState C) (p : C.Path)
    (s' : GenState C) (h : push_pathF C f s p = some s') : push_pathF C f' s p = some s' := by
  rw [push_pathF] at h ⊢
  rcases hh : heuristicF C s.target f p with _ | pr
  · rw [hh] at h; cases h
  · rw [hh] at h
    rw [heuristicF_mono C s.target f f' hf p pr hh]
    exact h

theorem pushAllF_mono (C : Collab) (f f' : ℕ) (hf : f ≤ f') (l : List C.Path)
    (s s' : GenState C) (h : pushAllF C f s l = some s') : pushAllF C f' s l = some s' := by
  induction l generalizing s with
  | nil => rw [pushAllF] at h ⊢; exact h
  | cons p ps ih =>
    rw [pushAllF] at h ⊢
    rcases hp : push_pathF C f s p with _ | s1
    · rw [hp] at h; cases h
    · rw [hp, Option.some_bind] at h
      rw [push_pathF_mono C f f' hf s p s1 hp, Option.some_bind]
      exact ih s1 h

theorem pushAllF_isSome (C : Collab) (l : List C.Path) (s : GenState C) (ht : 0 < s.target) :
    ∃ fuel s', pushAllF C fuel s l = some s' := by
  induction l generalizing s with
  | nil => exact ⟨0, s, by rw [pushAllF]⟩
  | cons p ps ih =>
    obtain ⟨f1, h1⟩ := heuristicF_isSome_of_pos C s.target p ht
    obtain ⟨pr, hpr⟩ := Option.isSome_iff_exists.mp h1
    have hpush1 : push_pathF C f1 s p = some { s with frontier := ⟨p, pr⟩ :: s.frontier } := by
      rw [push_pathF, hpr, Option.map_some']
    obtain ⟨f2, s', h2⟩ := ih { s with frontier := ⟨p, pr⟩ :: s.frontier } ht
    refine ⟨max f1 f2, s', ?_⟩
    rw [pushAllF]
    rw [push_pathF_mono C f1 (max f1 f2) (le_max_left f1 f2) s p _ hpush1, Option.some_bind]
    exact pushAllF_mono C f2 (max f1 f2) (le_max_right f1 f2) ps _ s' h2

/-- With target 0, construction never succeeds: the root push evaluates
the heuristic at target magnitude `|0| = 0`, which diverges. -/
theorem newF_zero_none (C : Collab) (fuel : ℕ) (tl af : Bool) :
    newF C fuel 0 tl af = none := by
  rw [newF, push_pathF]
  dsimp only
  rw [abs_zero, heuristicF_none_of_zero_target]
  rfl

/-! ## Claims -/

/-- C1.  The claim says: with target magnitude zero, constructing the
engine and calling `run()` returns the zero-move root path for every flag
combination, with no expansion.  The code instead never gets there: for
every collaborator, every flag combination and every amount of fuel,
construction itself (`new`) diverges, because `push_path` evaluates the
heuristic, and with a zero target the value-halving loop never exits
(after the zero-value branch the working value is positive and halving
keeps it positive, hence forever above the zero target).  So the
construction, and a fortiori construction-plus-run, produce no result for
any fuel. -/
theorem c1_zero_target_run : ∀ (C : Collab) (fuel : ℕ) (trim_larger allow_fractions : Bool),
    newF C fuel 0 trim_larger allow_fractions = none ∧
      engineRunF C fuel 0 trim_larger allow_fractions = none := by
  intro C fuel tl af
  exact ⟨newF_zero_none C fuel tl af,
    by rw [engineRunF, newF_zero_none C fuel tl af]; rfl⟩

/-- C2, counterexample.  The claim says construction-plus-run terminates
for every target and flags whenever the collaborator operations are
total.  It does not: on the total collaborator `DivC` with the nonzero
target 2 (`trim_larger` and `allow_fractions` both set), every round pops
the single frontier entry and pushes exactly one successor whose value,
1, never equals the target, so the frontier never empties and no amount
of fuel completes the run. -/
theorem c2_counterexample : ¬ engineTerminates DivC 2 true true := by
  rintro ⟨fuel, hf⟩
  rw [engineRunF, divC_newF fuel, Option.some_bind, runF] at hf
  rw [if_neg (by norm_num)] at hf
  rcases fuel with _ | m
  · rw [runLoopF.eq_def] at hf
    norm_num at hf
  · rw [runLoopF.eq_def] at hf
    dsimp only at hf
    rw [if_neg (by norm_num)] at hf
    rw [divC_round0 (m + 1), Option.some_bind] at hf
    rw [if_neg (by norm_num)] at hf
    rw [show (⟨2, true, true, none, [⟨1, 1⟩]⟩ : GenState DivC) =
      ⟨2, true, true, none, [⟨0 + 1, 0 + 1⟩]⟩ by norm_num] at hf
    rw [divC_runLoopF_none (m + 1) m 0] at hf
    cases hf

/-- C2, amended.  What does hold of the code: the computation is a single
blocking call, each heuristic evaluation terminates whenever the target
magnitude is positive, and each round of the main loop (pop, successor
generation, pushes) runs to completion on a nonempty frontier with a
positive target; but the loop as a whole need not terminate
(`c2_counterexample`), and with a zero target even construction diverges
(`c1_zero_target_run`). -/
theorem c2_amended :
    (∀ (C : Collab) (target : ℚ) (p : C.Path), 0 < target →
        ∃ fuel, (heuristicF C target fuel p).isSome = true) ∧
      (∀ (C : Collab) (s : GenState C), 0 < s.target → s.frontier ≠ [] →
        ∃ fuel r, update_frontierF C fuel s = some r) := by
  constructor
  · exact fun C target p ht => heuristicF_isSome_of_pos C target p ht
  · intro C s ht hne
    have hp := popMin_isSome_of_ne_nil C s.frontier hne
    obtain ⟨pr, hpr⟩ := Option.isSome_iff_exists.mp hp
    obtain ⟨fuel, s2, hpush⟩ := pushAllF_isSome C
      (next_paths C { s with frontier := pr.2 } pr.1.path) { s with frontier := pr.2 } ht
    refine ⟨fuel, ?_, ?_⟩
    · exact (s2, (next_paths C { s with frontier := pr.2 } pr.1.path).any
        fun p => decide (C.value p = s.target))
    · rw [update_frontierF, hpr, Option.some_bind]
      dsimp only
      rw [hpush, Option.map_some']

/-- Witness for C2's amended theorem at concrete inputs: target 1,
the root path of `TestC`, and a one-entry frontier. -/
theorem c2_witness :
    (∃ fuel, (heuristicF TestC 1 fuel (0 : ℕ)).isSome = true) ∧
      (∃ fuel r, update_frontierF TestC fuel ⟨1, false, true, none, [⟨0, 1⟩]⟩ = some r) :=
  ⟨c2_amended.1 TestC 1 (0 : ℕ) (by norm_num),
    c2_amended.2 TestC ⟨1, false, true, none, [⟨0, 1⟩]⟩ (by norm_num) (by simp)⟩

/-- C3.  Whenever construction-plus-run returns a path, that path's value
equals the requested target magnitude exactly: the best candidate starts
empty, is only ever set to a frontier entry drawn from the exact-match
scan, and the final result is the best candidate. -/
theorem c3_exactness :
    ∀ (C : Collab) (fuel fuel2 : ℕ) (t : ℚ) (tl af : Bool) (s : GenState C) (p : C.Path),
      newF C fuel t tl af = some s → runF C fuel2 s = some (some p) →
      C.value p = |t| := by
  intro C fuel fuel2 t tl af s p hnew hrun
  have hnew' : push_pathF C fuel
      { target := |t|, trim_larger := tl, allow_fractions := af, smallest := none,
        frontier := [] } (C.zero (nonZeroSignOf t)) = some s := by
    rw [newF] at hnew; exact hnew
  obtain ⟨h1, _, _, h4⟩ := push_pathF_same C fuel _ _ s hnew'
  dsimp only at h1 h4
  rw [runF] at hrun
  by_cases hz : s.target = 0
  · have ht0 : t = 0 := by
      have : |t| = 0 := by rw [← h1]; exact hz
      exact abs_eq_zero.mp this
    rw [ht0] at hnew
    rw [newF_zero_none C fuel tl af] at hnew
    cases hnew
  · rw [if_neg hz, runLoopF_eq_iterF] at hrun
    rcases hit : iterF C fuel2 fuel2 s with _ | s'
    · rw [hit] at hrun; cases hrun
    · rw [hit, Option.some_bind] at hrun
      split at hrun
      · have hsm : s'.smallest = some p := by
          injection hrun
        have hex : SmallestExact C s' :=
          iterF_smallestExact C fuel2 fuel2 s s' hit
            (by intro q hq; rw [h4] at hq; cases hq)
        have hv := hex p hsm
        rw [(iterF_same C fuel2 fuel2 s s' hit).1] at hv
        exact hv.trans h1
      · cases hrun

/-- Witness for C3 at concrete inputs: `TestC` with target 2 returns the
path `2`, whose value is `|2|`. -/
theorem c3_witness : TestC.value 2 = |(2 : ℚ)| :=
  c3_exactness TestC 4 4 2 false true ⟨2, false, true, none, [⟨0, 1⟩]⟩ 2
    (by norm_num [newF, push_pathF, heuristicF, heuristicEntry, loop1F, loop2F, nonZeroSignOf])
    (by norm_num [runF, runLoopF, update_frontierF, popMin, next_paths, pushAllF, push_pathF,
      heuristicF, heuristicEntry, loop1F, loop2F, check_smallest, minByQuasiArea, ratIsInteger])

/-- C7.  The best candidate is monotonic over the run: it starts as none
at construction, and a round either leaves it unchanged or replaces it
with a path the external should-replace comparator prefers to the old
value; in particular it is never cleared. -/
theorem c7_best_solution_monotonic :
    ∀ C : Collab,
      (∀ (fuel : ℕ) (t : ℚ) (tl af : Bool) (s : GenState C),
        newF C fuel t tl af = some s → s.smallest = none) ∧
      (∀ (fuel : ℕ) (s r : GenState C), roundF C fuel s = some r →
        r.smallest = s.smallest ∨
          ∃ p, r.smallest = some p ∧ C.should_replace p s.smallest = true) := by
  intro C
  constructor
  · intro fuel t tl af s h
    have h' : push_pathF C fuel
        { target := |t|, trim_larger := tl, allow_fractions := af, smallest := none,
          frontier := [] } (C.zero (nonZeroSignOf t)) = some s := by
      rw [newF] at h; exact h
    exact (push_pathF_same C fuel _ _ s h').2.2.2
  · exact fun fuel s r h => roundF_smallest_cases C fuel s r h

/-- Witness for C7 at concrete inputs: the constructed `TestC` engine has
no best candidate, and a concrete first round leaves it unchanged. -/
theorem c7_witness :
    (⟨2, false, true, none, [⟨0, 1⟩]⟩ : GenState TestC).smallest = none ∧
      ((⟨2, false, true, none, [⟨1, 1⟩]⟩ : GenState TestC).smallest =
          (⟨2, false, true, none, [⟨0, 1⟩]⟩ : GenState TestC).smallest ∨
        ∃ p, (⟨2, false, true, none, [⟨1, 1⟩]⟩ : GenState TestC).smallest = some p ∧
          TestC.should_replace p
            (⟨2, false, true, none, [⟨0, 1⟩]⟩ : GenState TestC).smallest = true) :=
  ⟨(c7_best_solution_monotonic TestC).1 4 2 false true _
      (by norm_num [newF, push_pathF, heuristicF, heuristicEntry, loop1F, loop2F,
        nonZeroSignOf]),
    (c7_best_solution_monotonic TestC).2 4 ⟨2, false, true, none, [⟨0, 1⟩]⟩
      ⟨2, false, true, none, [⟨1, 1⟩]⟩
      (by norm_num [roundF, update_frontierF, popMin, next_paths, pushAllF, push_pathF,
        heuristicF, heuristicEntry, loop1F, loop2F, check_smallest, minByQuasiArea,
        ratIsInteger])⟩

/-- C10.  The unconditional unwrap of the frontier pop inside
`update_frontier` never fails: whenever the frontier is nonempty the pop
yields an entry, and when the frontier is empty the run loop returns the
best candidate without ever calling `update_frontier`. -/
theorem c10_pop_unwrap_safe :
    ∀ C : Collab,
      (∀ s : GenState C, s.frontier ≠ [] → (popMin C s.frontier).isSome = true) ∧
      (∀ (fuel n : ℕ) (s : GenState C), s.frontier = [] →
        runLoopF C fuel n s = some s.smallest) := by
  intro C
  refine ⟨fun s hs => popMin_isSome_of_ne_nil C s.frontier hs, fun fuel n s hs => ?_⟩
  rw [runLoopF.eq_def]
  dsimp only
  rw [if_pos (by rw [hs]; rfl)]

/-- Witness for C10 at concrete inputs: a one-entry frontier pops
successfully, and the loop on an empty frontier returns the (empty) best
candidate. -/
theorem c10_witness :
    (popMin TestC (⟨2, false, true, none, [⟨0, 1⟩]⟩ : GenState TestC).frontier).isSome = true ∧
      runLoopF TestC 3 3 ⟨2, false, true, none, []⟩ = some none :=
  ⟨(c10_pop_unwrap_safe TestC).1 ⟨2, false, true, none, [⟨0, 1⟩]⟩ (by simp),
    (c10_pop_unwrap_safe TestC).2 3 3 ⟨2, false, true, none, []⟩ rfl⟩

/-- C4, counterexample.  The claim says the target is halved while it
exceeds the working value, symmetrically to the value-halving loop.  The
source's guard is `target / 2 > val`, not `target > val`: at
`target = 4`, `val = 3` the target exceeds the value yet the loop
performs no halving (`loop2F` returns the target unchanged with count 0),
while the loop worded as the claim says (`loop2Spec`) halves once. -/
theorem c4_counterexample :
    loop2F 5 4 3 0 = some (4, 0) ∧ ((4 : ℚ) > 3) ∧ loop2Spec 5 4 3 0 = some (2, 1) := by
  refine ⟨loop2F_of_not_gt 5 4 3 0 (by norm_num), by norm_num, ?_⟩
  norm_num [loop2Spec]

/-- C4, amended.  The target-halving loop halves the working target while
its half exceeds the working value (guard `target / 2 > val`), counting
one extra estimated move per halving: any terminating execution returns
`target / 2 ^ k` and adds `k` to the count, where each performed halving
had `target / 2 ^ j / 2 > val` and the final value fails that guard. -/
theorem c4_amended : ∀ (fuel : ℕ) (target val : ℚ) (h : ℕ) (t' : ℚ) (h' : ℕ),
    loop2F fuel target val h = some (t', h') →
    ∃ k, t' = target / 2 ^ k ∧ h' = h + k ∧ ¬(t' / 2 > val) ∧
      ∀ j < k, target / 2 ^ j / 2 > val := by
  intro fuel
  induction fuel with
  | zero =>
    intro target val h t' h' hr
    by_cases hg : target / 2 > val
    · rw [loop2F_zero_of_gt target val h hg] at hr; cases hr
    · rw [loop2F_of_not_gt 0 target val h hg] at hr
      cases hr
      exact ⟨0, by norm_num, by norm_num, hg, fun j hj => absurd hj (Nat.not_lt_zero j)⟩
  | succ f ih =>
    intro target val h t' h' hr
    by_cases hg : target / 2 > val
    · rw [loop2F_succ_of_gt f target val h hg] at hr
      obtain ⟨k, hk1, hk2, hk3, hk4⟩ := ih (target / 2) val (h + 1) t' h' hr
      refine ⟨k + 1, ?_, by omega, hk3, ?_⟩
      · rw [hk1, div_div, ← pow_succ']
      · intro j hj
        rcases j with _ | j'
        · simpa using hg
        · have hj' := hk4 j' (by omega)
          have he : target / 2 / 2 ^ j' = target / 2 ^ (j' + 1) := by
            rw [div_div, ← pow_succ']
          rw [he] at hj'
          exact hj'
    · rw [loop2F_of_not_gt (f + 1) target val h hg] at hr
      cases hr
      exact ⟨0, by norm_num, by norm_num, hg, fun j hj => absurd hj (Nat.not_lt_zero j)⟩

/-- Witness for C4's amended theorem at `target = 8`, `val = 1`: two
halvings are performed. -/
theorem c4_witness :
    ∃ k, (2 : ℚ) = 8 / 2 ^ k ∧ 2 = 0 + k ∧ ¬((2 : ℚ) / 2 > 1) ∧
      ∀ j < k, (8 : ℚ) / 2 ^ j / 2 > 1 :=
  c4_amended 5 8 1 0 2 2 (by norm_num [loop2F])

/-- C5.  A legal extension is kept as a successor if and only if it
passes all three filters: the trim-larger bound when `trim_larger` is
set, integrality when `allow_fractions` is not set, and the external
should-replace comparator against the current best; and when the
comparator satisfies its contract of accepting everything against an
absent best, the third filter is vacuous while the best candidate is
none.  Illegal extensions never appear. -/
theorem c5_successor_filter :
    ∀ (C : Collab) (s : GenState C) (path p' : C.Path),
      (p' ∈ next_paths C s path ↔
        (∃ a ∈ C.angles, C.with_angle path a = some p') ∧
          (s.trim_larger = true → C.value p' ≤ s.target) ∧
          (s.allow_fractions = false → ratIsInteger (C.value p') = true) ∧
          C.should_replace p' s.smallest = true) ∧
      ((∀ q, C.should_replace q none = true) → s.smallest = none →
        (p' ∈ next_paths C s path ↔
          (∃ a ∈ C.angles, C.with_angle path a = some p') ∧
            (s.trim_larger = true → C.value p' ≤ s.target) ∧
            (s.allow_fractions = false → ratIsInteger (C.value p') = true))) := by
  intro C s path p'
  refine ⟨mem_next_paths C s path p', fun hnone hsm => ?_⟩
  rw [mem_next_paths C s path p', hsm, hnone p']
  simp

/-- Witness for C5 at concrete inputs: in `TestC` with target 2 and a
fresh state, the extension of the root by the single angle is kept. -/
theorem c5_witness : (1 : ℕ) ∈ next_paths TestC ⟨2, false, true, none, []⟩ 0 :=
  ((c5_successor_filter TestC ⟨2, false, true, none, []⟩ 0 1).1).mpr
    ⟨⟨(), by simp, by norm_num⟩, by simp, by simp, by simp⟩

/-- C6.  In each iteration of the run loop, the frontier-wide scan and
possible best-candidate update (`check_smallest`) happen if and only if
some successor produced in that round has value exactly the target; when
no successor matches, the best candidate is untouched by the round's
pushes. -/
theorem c6_scan_iff_match :
    ∀ (C : Collab) (fuel n : ℕ) (s : GenState C) (pr : QP C × List (QP C)) (s2 : GenState C),
      popMin C s.frontier = some pr →
      pushAllF C fuel { s with frontier := pr.2 }
          (next_paths C { s with frontier := pr.2 } pr.1.path) = some s2 →
      (runLoopF C fuel (n + 1) s =
        (if (next_paths C { s with frontier := pr.2 } pr.1.path).any
            (fun p => decide (C.value p = s.target)) = true
          then runLoopF C fuel n (check_smallest C s2)
          else runLoopF C fuel n s2)) ∧
      ((next_paths C { s with frontier := pr.2 } pr.1.path).any
          (fun p => decide (C.value p = s.target)) = false → s2.smallest = s.smallest) := by
  intro C fuel n s pr s2 hpop hpush
  constructor
  · rw [runLoopF.eq_def]
    dsimp only
    rw [if_neg ?hne]
    case hne =>
      intro he
      exact popMin_ne_nil C s.frontier pr hpop (List.isEmpty_iff.mp he)
    have hupd : update_frontierF C fuel s =
        some (s2, (next_paths C { s with frontier := pr.2 } pr.1.path).any
          (fun p => decide (C.value p = s.target))) := by
      rw [update_frontierF, hpop, Option.some_bind]
      dsimp only
      rw [hpush, Option.map_some']
    rw [hupd, Option.some_bind]
    by_cases hb : (next_paths C { s with frontier := pr.2 } pr.1.path).any
        (fun p => decide (C.value p = s.target)) = true
    · rw [if_pos hb]
      dsimp only
      rw [if_pos hb]
    · rw [if_neg hb]
      dsimp only
      rw [if_neg hb]
  · intro _
    exact (pushAllF_same C fuel _ _ _ hpush).2.2.2

/-- Witness for C6 at concrete inputs: the first round of the `TestC`
engine with target 2 produces no match, so the loop step goes to the
unscanned pushed state. -/
theorem c6_witness :
    (runLoopF TestC 4 (2 + 1) ⟨2, false, true, none, [⟨0, 1⟩]⟩ =
      (if (next_paths TestC { (⟨2, false, true, none, [⟨0, 1⟩]⟩ : GenState TestC) with
            frontier := [] } ((⟨0, 1⟩ : QP TestC).path)).any
          (fun p => decide (TestC.value p = (⟨2, false, true, none,
            [⟨0, 1⟩]⟩ : GenState TestC).target)) = true
        then runLoopF TestC 4 2 (check_smallest TestC ⟨2, false, true, none, [⟨1, 1⟩]⟩)
        else runLoopF TestC 4 2 ⟨2, false, true, none, [⟨1, 1⟩]⟩)) ∧
      ((next_paths TestC { (⟨2, false, true, none, [⟨0, 1⟩]⟩ : GenState TestC) with
            frontier := [] } ((⟨0, 1⟩ : QP TestC).path)).any
          (fun p => decide (TestC.value p = (⟨2, false, true, none,
            [⟨0, 1⟩]⟩ : GenState TestC).target)) = false →
        (⟨2, false, true, none, [⟨1, 1⟩]⟩ : GenState TestC).smallest =
          (⟨2, false, true, none, [⟨0, 1⟩]⟩ : GenState TestC).smallest) :=
  c6_scan_iff_match TestC 4 2 ⟨2, false, true, none, [⟨0, 1⟩]⟩ (⟨0, 1⟩, [])
    ⟨2, false, true, none, [⟨1, 1⟩]⟩ (by norm_num [popMin])
    (by norm_num [pushAllF, push_pathF, next_paths, heuristicF, heuristicEntry, loop1F,
      loop2F, ratIsInteger])

/-- C8, counterexample.  The claim says every frontier entry present, or
later inserted, while a best solution `S` is held passes the dominance
test against `S`'s bounding shape.  Successors inserted after `S` is
adopted are filtered only by the should-replace comparator, not by the
dominance test: on `BadC` with target 1, after two rounds the best
solution is the path `[true]` while the frontier holds the later-inserted
entry `[true, true]`, whose bounding shape fails the dominance test
against `[true]`'s. -/
theorem c8_counterexample :
    ((newF BadC 4 1 false true).bind (roundF BadC 4)).bind (roundF BadC 4) =
      some ⟨1, false, true, some [true],
        [⟨[false, true], 3⟩, ⟨[true, true], 3⟩, ⟨[false], 2⟩]⟩ ∧
      BadC.is_better_than (BadC.bounds [true, true]) (BadC.bounds [true]) = false := by
  constructor
  · norm_num [newF, push_pathF, roundF, update_frontierF, popMin, next_paths, pushAllF,
      heuristicF, heuristicEntry, loop1F, loop2F, check_smallest, minByQuasiArea,
      ratIsInteger, nonZeroSignOf]
  · norm_num

/-- C8, amended.  At the moment a new best solution `S` is adopted by the
scan, every entry remaining in the frontier passes the dominance test
against `S`'s bounding shape (the dominated ones are pruned right then);
no such guarantee extends to entries inserted later. -/
theorem c8_amended :
    ∀ (C : Collab) (s : GenState C) (S : C.Path),
      minByQuasiArea C ((s.frontier.map QP.path).filter
          fun p => decide (C.value p = s.target)) = some S →
      C.should_replace S s.smallest = true →
      ∀ qp ∈ (check_smallest C s).frontier,
        C.is_better_than (C.bounds qp.path) (C.bounds S) = true := by
  intro C s S hmin hsr qp hqp
  rw [check_smallest, hmin] at hqp
  dsimp only at hqp
  rw [if_pos hsr] at hqp
  exact (List.mem_filter.mp hqp).2

/-- Witness for C8's amended theorem: adopting `[true]` in the first
`BadC` round leaves the entry `[false]`, whose shape passes the dominance
test against `[true]`'s shape. -/
theorem c8_witness :
    BadC.is_better_than (BadC.bounds ([false] : List Bool)) (BadC.bounds [true]) = true :=
  c8_amended BadC ⟨1, false, true, none, [⟨[false], 2⟩, ⟨[true], 1⟩]⟩ [true]
    (by norm_num [minByQuasiArea]) (by norm_num) ⟨[false], 2⟩
    (by norm_num [check_smallest, minByQuasiArea])

/-- C9.  For a nonzero target, a finished run returns exactly the best
candidate held when the frontier becomes empty, and the result is absent
if and only if the best candidate was never set at any point of the run
(once set, it stays set). -/
theorem c9_returns_best_on_exhaustion :
    ∀ (C : Collab) (fuel : ℕ) (s : GenState C) (r : Option C.Path),
      s.target ≠ 0 → runF C fuel s = some r →
      ∃ s', iterF C fuel fuel s = some s' ∧ s'.frontier = [] ∧ r = s'.smallest ∧
        (r = none ↔ ∀ k, k ≤ fuel → ∀ s'', iterF C fuel k s = some s'' →
          s''.smallest = none) := by
  intro C fuel s r hz hrun
  rw [runF, if_neg hz, runLoopF_eq_iterF] at hrun
  rcases hit : iterF C fuel fuel s with _ | s'
  · rw [hit] at hrun; cases hrun
  · rw [hit, Option.some_bind] at hrun
    split at hrun
    · rename_i hemp
      have hfr : s'.frontier = [] := List.isEmpty_iff.mp hemp
      injection hrun with hr
      refine ⟨s', rfl, hfr, hr.symm, ?_⟩
      constructor
      · intro hrnone k hk s'' hk''
        have hdec : iterF C fuel (k + (fuel - k)) s = some s' := by
          rw [show k + (fuel - k) = fuel by omega]
          exact hit
        rw [iterF_add, hk'', Option.some_bind] at hdec
        rcases ho : s''.smallest with _ | q
        · rfl
        · exfalso
          have hsome : s'.smallest.isSome = true :=
            iterF_smallest_isSome C fuel (fuel - k) s'' s' hdec (by rw [ho]; rfl)
          rw [hr, hrnone] at hsome
          cases hsome
      · intro hall
        have := hall fuel le_rfl s' hit
        rw [← hr, this]
    · cases hrun

/-- Witness for C9 at concrete inputs: the finished `TestC` run with
target 2 exhausts the frontier holding the best candidate `2`. -/
theorem c9_witness :
    ∃ s', iterF TestC 4 4 ⟨2, false, true, none, [⟨0, 1⟩]⟩ = some s' ∧ s'.frontier = [] ∧
      (some (2 : ℕ) : Option TestC.Path) = s'.smallest ∧
      ((some (2 : ℕ) : Option TestC.Path) = none ↔ ∀ k, k ≤ 4 → ∀ s'',
        iterF TestC 4 k ⟨2, false, true, none, [⟨0, 1⟩]⟩ = some s'' →
          s''.smallest = none) :=
  c9_returns_best_on_exhaustion TestC 4 ⟨2, false, true, none, [⟨0, 1⟩]⟩ (some 2)
    (by norm_num)
    (by norm_num [runF, runLoopF, update_frontierF, popMin, next_paths, pushAllF, push_pathF,
      heuristicF, heuristicEntry, loop1F, loop2F, check_smallest, minByQuasiArea,
      ratIsInteger])

end AStarGen
